import Mathlib

/-!
Verification of the trajectory-prediction application (trajectory_app).

Part 1: the Trajectory Synchronizer.  The repository's `data_manager` module
(class `TrajectoryDataManager`, method `synchronize_trajectories`) is called
from `trajectory_app/app.py` but its source file is not part of the tree, so
the synchronizer is modelled from the specification (spec.md §4.1).

Part 2: functions embedded directly from the source files
`trajectory_app/visualizer.py` and `trajectory_app/app.py`.

Real-valued quantities of the Python code (floats) are modelled as rationals
where the code is exact arithmetic, and as reals where square roots occur.
-/

/-- A trajectory sample: a pose `(x, y, heading)` tagged with a timestamp `t`
in seconds from scene start (spec.md §3, "Trajectory"). -/
structure Pose where
  x : ℚ
  y : ℚ
  heading : ℚ
  t : ℚ
deriving DecidableEq, Repr

/-- Linear interpolation of the value `v0` at `t0` and `v1` at `t1`,
evaluated at time `s`. -/
def lerp (t0 v0 t1 v1 s : ℚ) : ℚ :=
  v0 + (v1 - v0) * (s - t0) / (t1 - t0)

/-- Modelled from the spec: the missing `data_manager.synchronize_trajectories`
helper that linearly interpolates x, y, heading independently against a target
timestamp (spec.md §4.1 "linearly interpolate x, y, heading independently
against the target timestamps").  The returned pose is tagged with the query
time `s`.  On the segment whose right endpoint is the first sample time not
below `s`, each coordinate is interpolated linearly. -/
def interpAt : List Pose → ℚ → Pose
  | [], s => ⟨0, 0, 0, s⟩
  | [p], s => ⟨p.x, p.y, p.heading, s⟩
  | p :: q :: rest, s =>
      if s ≤ q.t then
        ⟨lerp p.t p.x q.t q.x s, lerp p.t p.y q.t q.y s,
         lerp p.t p.heading q.t q.heading s, s⟩
      else interpAt (q :: rest) s

/-- First (earliest) sample time of a trajectory; its native extent starts
here. -/
def tmin (traj : List Pose) : ℚ := (traj.headD ⟨0, 0, 0, 0⟩).t

/-- Last (latest) sample time of a trajectory; its native extent ends here. -/
def tmax (traj : List Pose) : ℚ := (traj.getLastD ⟨0, 0, 0, 0⟩).t

/-- Modelled from the spec: the target timestamp grid of the synchronizer,
`0, dt, 2·dt, …` up to the target time horizon (spec.md §4.1, §8 example:
horizon 2 s and dt 0.5 s give the grid `[0, 0.5, 1, 1.5, 2]`). -/
def targetGrid (horizon dt : ℚ) : List ℚ :=
  (List.range (⌊horizon / dt⌋.toNat + 1)).map (fun (k : ℕ) => (k : ℚ) * dt)

/-- Modelled from the spec: resampling of one source by the missing
`data_manager.synchronize_trajectories`.  A source with fewer than 2 points is
omitted (`none`); otherwise the target grid is truncated to the overlap with
the source's native extent and the source is linearly interpolated at each
kept grid time (spec.md §4.1). -/
def syncOne (horizon dt : ℚ) (traj : List Pose) : Option (List Pose) :=
  if traj.length < 2 then none
  else some
    (((targetGrid horizon dt).filter
        (fun s => decide (tmin traj ≤ s) && decide (s ≤ tmax traj))).map
      (interpAt traj))

/-- Modelled from the spec: the missing
`TrajectoryDataManager.synchronize_trajectories` (called in
`trajectory_app/app.py`).  The input mapping of source name → raw trajectory
is an association list; each source is resampled by `syncOne` and sources that
cannot be resampled are dropped from the output mapping (spec.md §4.1). -/
def synchronize_trajectories (m : List (String × List Pose)) (horizon dt : ℚ) :
    List (String × List Pose) :=
  m.filterMap (fun p => (syncOne horizon dt p.2).map (fun s => (p.1, s)))

/-- The pose interpolated at time `s` is tagged with timestamp `s`. -/
theorem interpAt_t (traj : List Pose) (s : ℚ) : (interpAt traj s).t = s := by
  induction traj with
  | nil => rfl
  | cons p rest ih =>
      cases rest with
      | nil => rfl
      | cons q rest2 =>
          unfold interpAt
          by_cases h : s ≤ q.t
          · simp [h]
          · simpa [h] using ih

/-- Interpolating at the left endpoint of a segment returns the left value. -/
theorem lerp_left (t0 v0 t1 v1 : ℚ) : lerp t0 v0 t1 v1 t0 = v0 := by
  simp [lerp]

/-- Interpolating at the right endpoint of a segment returns the right value,
provided the segment is non-degenerate. -/
theorem lerp_right (t0 v0 t1 v1 : ℚ) (h : t0 ≠ t1) : lerp t0 v0 t1 v1 t1 = v1 := by
  have hne : t1 - t0 ≠ 0 := sub_ne_zero.mpr (Ne.symm h)
  field_simp [lerp]

/-- In a trajectory whose timestamps form a strictly increasing chain, every
member of the tail is strictly later than the head. -/
theorem chain_t_lt_of_mem :
    ∀ {l : List Pose} {a p : Pose},
      List.Chain' (fun u v => u.t < v.t) (a :: l) → p ∈ l → a.t < p.t := by
  intro l
  induction l with
  | nil => intro a p _ hp; cases hp
  | cons b l2 ih =>
      intro a p hchain hp
      rw [List.chain'_cons] at hchain
      rcases List.mem_cons.mp hp with rfl | hp2
      · exact hchain.1
      · exact lt_trans hchain.1 (ih hchain.2 hp2)

/-- Resampling a (strictly increasing) trajectory at the timestamp of one of
its own samples reproduces that sample exactly. -/
theorem interpAt_self (traj : List Pose)
    (hsort : List.Chain' (fun u v => u.t < v.t) traj) (p : Pose) (hp : p ∈ traj) :
    interpAt traj p.t = p := by
  induction traj with
  | nil => cases hp
  | cons a tail ih =>
      cases tail with
      | nil =>
          rcases List.mem_cons.mp hp with rfl | h
          · rfl
          · cases h
      | cons b tail2 =>
          rw [List.chain'_cons] at hsort
          have hab : a.t < b.t := hsort.1
          rcases List.mem_cons.mp hp with rfl | hp'
          · show interpAt (p :: b :: tail2) p.t = p
            unfold interpAt
            rw [if_pos (le_of_lt hab)]
            rw [lerp_left, lerp_left, lerp_left]
          · rcases List.mem_cons.mp hp' with rfl | hp2
            · show interpAt (a :: p :: tail2) p.t = p
              unfold interpAt
              rw [if_pos le_rfl]
              rw [lerp_right _ _ _ _ (ne_of_lt hab), lerp_right _ _ _ _ (ne_of_lt hab),
                lerp_right _ _ _ _ (ne_of_lt hab)]
            · have hbp : b.t < p.t := chain_t_lt_of_mem hsort.2 hp2
              show interpAt (a :: b :: tail2) p.t = p
              unfold interpAt
              rw [if_neg (not_le.mpr hbp)]
              exact ih hsort.2 hp'

/-- `syncOne` omits a source exactly when it has fewer than 2 points. -/
theorem syncOne_eq_none_iff (horizon dt : ℚ) (traj : List Pose) :
    syncOne horizon dt traj = none ↔ traj.length < 2 := by
  unfold syncOne
  split <;> simp_all

/-- In an association list with pairwise distinct keys, a key determines its
value. -/
theorem assoc_key_unique {α : Type} {m : List (String × α)}
    (hnd : (m.map Prod.fst).Nodup) {n : String} {a b : α}
    (ha : (n, a) ∈ m) (hb : (n, b) ∈ m) : a = b := by
  induction m with
  | nil => cases ha
  | cons p rest ih =>
      rw [List.map_cons, List.nodup_cons] at hnd
      rcases List.mem_cons.mp ha with rfl | ha' <;>
        rcases List.mem_cons.mp hb with hb' | hb'
      · exact congrArg Prod.snd hb'.symm
      · exact absurd (List.mem_map.mpr ⟨(n, b), hb', rfl⟩) hnd.1
      · rw [← hb'] at hnd
        exact absurd (List.mem_map.mpr ⟨(n, a), ha', rfl⟩) hnd.1
      · exact ih hnd.2 ha' hb'

/-- Taking the timestamps of a list of interpolated poses recovers the query
times. -/
theorem map_t_map_interpAt (raw : List Pose) (l : List ℚ) :
    ((l.map (interpAt raw)).map Pose.t) = l := by
  induction l with
  | nil => rfl
  | cons s l2 ih => simp [interpAt_t, ih]

/-- The target grid is pairwise non-decreasing when the sample interval is
non-negative. -/
theorem targetGrid_pairwise_le (horizon dt : ℚ) (hdt : 0 ≤ dt) :
    (targetGrid horizon dt).Pairwise (· ≤ ·) := by
  unfold targetGrid
  refine List.Pairwise.map _ ?_ (List.pairwise_lt_range _)
  intro a b hab
  have : (a : ℚ) ≤ (b : ℚ) := by exact_mod_cast le_of_lt hab
  exact mul_le_mul_of_nonneg_right this hdt

/-- Every point of the target grid lies in `[0, horizon]` when the horizon is
non-negative and the step positive. -/
theorem targetGrid_mem_bounds (horizon dt : ℚ) (hdt : 0 < dt) (hhz : 0 ≤ horizon)
    (s : ℚ) (hs : s ∈ targetGrid horizon dt) : 0 ≤ s ∧ s ≤ horizon := by
  unfold targetGrid at hs
  rw [List.mem_map] at hs
  obtain ⟨k, hk, rfl⟩ := hs
  rw [List.mem_range] at hk
  constructor
  · exact mul_nonneg (Nat.cast_nonneg k) (le_of_lt hdt)
  · have hk2 : (k : ℚ) ≤ ((⌊horizon / dt⌋.toNat : ℕ) : ℚ) := by
      exact_mod_cast Nat.lt_succ_iff.mp hk
    have hq : (0 : ℚ) ≤ horizon / dt := div_nonneg hhz (le_of_lt hdt)
    have hfl : ((⌊horizon / dt⌋.toNat : ℕ) : ℚ) ≤ horizon / dt := by
      rw [show ((⌊horizon / dt⌋.toNat : ℕ) : ℚ) = ((⌊horizon / dt⌋.toNat : ℤ) : ℚ) by
        push_cast; ring]
      rw [Int.toNat_of_nonneg (Int.floor_nonneg.mpr hq)]
      exact Int.floor_le _
    calc (k : ℚ) * dt ≤ ((⌊horizon / dt⌋.toNat : ℕ) : ℚ) * dt :=
          mul_le_mul_of_nonneg_right hk2 (le_of_lt hdt)
      _ ≤ (horizon / dt) * dt := mul_le_mul_of_nonneg_right hfl (le_of_lt hdt)
      _ = horizon := div_mul_cancel₀ horizon (ne_of_gt hdt)

/-- C1: every source kept in the output of `synchronize_trajectories` has a
monotonically non-decreasing resampled timestamp array, and its timestamps are
exactly the target-grid times lying in the overlap of `[0, horizon]` with the
source's native time extent `[tmin, tmax]`. -/
theorem synchronized_timestamps_monotone_overlap
    (m : List (String × List Pose)) (horizon dt : ℚ)
    (hdt : 0 < dt) (hhz : 0 ≤ horizon) (n : String) (sync : List Pose)
    (hmem : (n, sync) ∈ synchronize_trajectories m horizon dt) :
    List.Chain' (· ≤ ·) (sync.map Pose.t) ∧
    ∃ raw, (n, raw) ∈ m ∧
      sync.map Pose.t = (targetGrid horizon dt).filter
          (fun s => decide (tmin raw ≤ s) && decide (s ≤ tmax raw)) ∧
      ∀ s ∈ sync.map Pose.t, max 0 (tmin raw) ≤ s ∧ s ≤ min horizon (tmax raw) := by
  unfold synchronize_trajectories at hmem
  rw [List.mem_filterMap] at hmem
  obtain ⟨⟨n', raw⟩, hin, heq⟩ := hmem
  cases hso : syncOne horizon dt raw with
  | none => rw [hso] at heq; simp at heq
  | some s' =>
      rw [hso] at heq
      simp only [Option.map_some', Option.some.injEq, Prod.mk.injEq] at heq
      obtain ⟨rfl, rfl⟩ := heq
      unfold syncOne at hso
      by_cases hlen : raw.length < 2
      · rw [if_pos hlen] at hso; cases hso
      · rw [if_neg hlen] at hso
        have hsync : s' = ((targetGrid horizon dt).filter
            (fun s => decide (tmin raw ≤ s) && decide (s ≤ tmax raw))).map
              (interpAt raw) := by
          exact (Option.some.injEq _ _ ▸ hso).symm
        have hts : s'.map Pose.t = (targetGrid horizon dt).filter
            (fun s => decide (tmin raw ≤ s) && decide (s ≤ tmax raw)) := by
          rw [hsync, map_t_map_interpAt]
        constructor
        · rw [hts]
          exact ((targetGrid_pairwise_le horizon dt (le_of_lt hdt)).sublist
            (List.filter_sublist _)).chain'
        · refine ⟨raw, hin, hts, ?_⟩
          intro s hs
          rw [hts, List.mem_filter] at hs
          obtain ⟨hgrid, hcond⟩ := hs
          rw [Bool.and_eq_true, decide_eq_true_eq, decide_eq_true_eq] at hcond
          have hb := targetGrid_mem_bounds horizon dt hdt hhz s hgrid
          exact ⟨max_le hb.1 hcond.1, le_min hb.2 hcond.2⟩

/-- C2: a source with fewer than 2 sample points is omitted from the
synchronized set, while a source with at least 2 points is kept. -/
theorem short_sources_omitted
    (m : List (String × List Pose)) (horizon dt : ℚ)
    (hnd : (m.map Prod.fst).Nodup) (n : String) (raw : List Pose)
    (hmem : (n, raw) ∈ m) :
    (raw.length < 2 →
      ∀ sync, (n, sync) ∉ synchronize_trajectories m horizon dt) ∧
    (2 ≤ raw.length →
      ∃ sync, (n, sync) ∈ synchronize_trajectories m horizon dt) := by
  constructor
  · intro hlen sync hsync
    unfold synchronize_trajectories at hsync
    rw [List.mem_filterMap] at hsync
    obtain ⟨⟨n', raw'⟩, hin, heq⟩ := hsync
    cases hso : syncOne horizon dt raw' with
    | none => rw [hso] at heq; cases heq
    | some s' =>
        rw [hso] at heq
        simp only [Option.map_some', Option.some.injEq, Prod.mk.injEq] at heq
        obtain ⟨rfl, rfl⟩ := heq
        have : raw = raw' := assoc_key_unique hnd hmem hin
        subst this
        rw [(syncOne_eq_none_iff horizon dt raw).mpr hlen] at hso
        cases hso
  · intro hlen
    have hso : syncOne horizon dt raw = some (((targetGrid horizon dt).filter
        (fun s => decide (tmin raw ≤ s) && decide (s ≤ tmax raw))).map
          (interpAt raw)) := by
      unfold syncOne; rw [if_neg (Nat.not_lt.mpr hlen)]
    refine ⟨((targetGrid horizon dt).filter
        (fun s => decide (tmin raw ≤ s) && decide (s ≤ tmax raw))).map
          (interpAt raw), List.mem_filterMap.mpr ⟨(n, raw), hmem, ?_⟩⟩
    rw [hso]
    rfl

/-- C3: resampling a source trajectory (with at least 2 points, timestamps
strictly increasing as spec.md §3 stipulates ordered sequences) at one of its
own original timestamps returns the original pose values unchanged. -/
theorem resampling_identity_on_own_grid (traj : List Pose)
    (_hlen2 : 2 ≤ traj.length)
    (hsort : List.Chain' (fun u v => u.t < v.t) traj)
    (p : Pose) (hp : p ∈ traj) :
    interpAt traj p.t = p :=
  interpAt_self traj hsort p hp

/-- Source A of the spec's worked example: poses at timestamps 0, 1, 2, 3
(horizon 3 s).  Pose values are chosen concretely. -/
def exampleTrajA : List Pose :=
  [⟨0, 0, 0, 0⟩, ⟨2, 1, 1, 1⟩, ⟨4, 0, 0, 2⟩, ⟨6, 1, 1, 3⟩]

/-- Source B of the spec's worked example: poses at timestamps 0, 0.5, 1,
1.5, 2 (horizon 2 s). -/
def exampleTrajB : List Pose :=
  [⟨0, 0, 0, 0⟩, ⟨1, 2, 0, 1/2⟩, ⟨2, 3, 1, 1⟩, ⟨3, 3, 0, 3/2⟩, ⟨4, 2, 1, 2⟩]

/-- The resampled output of source A on the common grid. -/
def exampleSyncA : List Pose :=
  [⟨0, 0, 0, 0⟩, ⟨1, 1/2, 1/2, 1/2⟩, ⟨2, 1, 1, 1⟩, ⟨3, 1/2, 1/2, 3/2⟩, ⟨4, 0, 0, 2⟩]

/-- Horizon 2 s with sample interval 0.5 s gives the common grid
`[0, 0.5, 1, 1.5, 2]`. -/
theorem targetGrid_two_half : targetGrid 2 (1/2) = [0, 1/2, 1, 3/2, 2] := by
  have h4 : (⌊(2:ℚ) / (1/2)⌋).toNat = 4 := by
    have h : ⌊(2:ℚ) / (1/2)⌋ = 4 := by norm_num
    rw [h]; rfl
  unfold targetGrid
  rw [h4]
  simp [List.range_succ]
  norm_num

/-- Resampling source A at horizon 2 s, dt 0.5 s. -/
theorem syncOne_exampleA :
    syncOne 2 (1/2) exampleTrajA = some exampleSyncA := by
  rw [syncOne, targetGrid_two_half]
  norm_num [exampleTrajA, exampleSyncA, tmin, tmax, List.filter_cons, interpAt, lerp]

/-- Resampling source B at horizon 2 s, dt 0.5 s: B's own sample grid
coincides with the target grid, so B is reproduced unchanged. -/
theorem syncOne_exampleB :
    syncOne 2 (1/2) exampleTrajB = some exampleTrajB := by
  rw [syncOne, targetGrid_two_half]
  norm_num [exampleTrajB, tmin, tmax, List.filter_cons, interpAt, lerp]

/-- The interpolated poses of source A at the common grid times. -/
theorem map_interp_exampleA :
    (targetGrid 2 (1/2)).map (interpAt exampleTrajA) = exampleSyncA := by
  rw [targetGrid_two_half]
  norm_num [exampleTrajA, exampleSyncA, interpAt, lerp]

/-- The interpolated poses of source B at the common grid times. -/
theorem map_interp_exampleB :
    (targetGrid 2 (1/2)).map (interpAt exampleTrajB) = exampleTrajB := by
  rw [targetGrid_two_half]
  norm_num [exampleTrajB, interpAt, lerp]

/-- C4: the spec's worked example.  Source A samples at 0, 1, 2, 3 s and
source B at 0, 0.5, 1, 1.5, 2 s; synchronizing at horizon 2 s with dt 0.5 s
yields the common grid `[0, 0.5, 1, 1.5, 2]`, keeps both sources, and each
output pose is the linear interpolation of its source at the grid time. -/
theorem synchronize_example_two_sources :
    targetGrid 2 (1/2) = [0, 1/2, 1, 3/2, 2] ∧
    synchronize_trajectories [("A", exampleTrajA), ("B", exampleTrajB)] 2 (1/2) =
      [("A", exampleSyncA), ("B", exampleTrajB)] ∧
    exampleSyncA = (targetGrid 2 (1/2)).map (interpAt exampleTrajA) ∧
    exampleTrajB = (targetGrid 2 (1/2)).map (interpAt exampleTrajB) := by
  refine ⟨targetGrid_two_half, ?_, map_interp_exampleA.symm, map_interp_exampleB.symm⟩
  simp only [synchronize_trajectories, List.filterMap_cons, List.filterMap_nil]
  rw [syncOne_exampleA, syncOne_exampleB]
  rfl

/-- Synchronizing the single-source mapping containing A. -/
theorem synchronize_singletonA :
    synchronize_trajectories [("A", exampleTrajA)] 2 (1/2) =
      [("A", exampleSyncA)] := by
  simp only [synchronize_trajectories, List.filterMap_cons, List.filterMap_nil]
  rw [syncOne_exampleA]
  rfl

/-- Witness for C1 at a concrete input. -/
theorem synchronized_timestamps_monotone_overlap_witness :
    List.Chain' (· ≤ ·) (exampleSyncA.map Pose.t) ∧
    ∃ raw, ("A", raw) ∈ [("A", exampleTrajA)] ∧
      exampleSyncA.map Pose.t = (targetGrid 2 (1/2)).filter
          (fun s => decide (tmin raw ≤ s) && decide (s ≤ tmax raw)) ∧
      ∀ s ∈ exampleSyncA.map Pose.t,
        max 0 (tmin raw) ≤ s ∧ s ≤ min 2 (tmax raw) :=
  synchronized_timestamps_monotone_overlap [("A", exampleTrajA)] 2 (1/2)
    (by norm_num) (by norm_num) "A" exampleSyncA
    (by rw [synchronize_singletonA]; exact List.mem_singleton.mpr rfl)

/-- Witness for C2 at a concrete input: next to the omitted one-point source
"short", the four-point source "A" is kept in the synchronized set. -/
theorem short_sources_omitted_witness :
    ∃ sync, ("A", sync) ∈
      synchronize_trajectories
        [("short", [⟨0, 0, 0, 0⟩]), ("A", exampleTrajA)] 2 (1/2) :=
  (short_sources_omitted [("short", [⟨0, 0, 0, 0⟩]), ("A", exampleTrajA)] 2 (1/2)
    (by simp) "A" exampleTrajA (by simp)).2 (by norm_num [exampleTrajA])

/-- Witness for C3 at a concrete input: interpolating source A at its own
sample time 1 returns the original sample. -/
theorem resampling_identity_witness :
    interpAt exampleTrajA 1 = ⟨2, 1, 1, 1⟩ :=
  resampling_identity_on_own_grid exampleTrajA (by norm_num [exampleTrajA])
    (by simp [exampleTrajA, List.chain'_cons]; norm_num) ⟨2, 1, 1, 1⟩
    (by simp [exampleTrajA])

/-!
Part 2: functions embedded from the source files.
-/

/-- A YAML configuration value, as processed by
`TrajectoryPredictionApp._expand_env_vars` (app.py:83-92).  The type
parameter `α` stands for all scalar values other than strings (numbers,
booleans, null), which the function leaves untouched. -/
inductive ConfigValue (α : Type) where
  | str (s : String)
  | list (l : List (ConfigValue α))
  | dict (l : List (String × ConfigValue α))
  | other (a : α)

/-- Embedded from `TrajectoryPredictionApp._expand_env_vars` (app.py:83-92):
recursively expand environment variables in a configuration value.  The
external `os.path.expandvars` is abstracted as the string function `f`. -/
def expand_env_vars {α : Type} (f : String → String) : ConfigValue α → ConfigValue α
  | .str s => .str (f s)
  | .other a => .other a
  | .list l => .list (l.attach.map (fun x => expand_env_vars f x.1))
  | .dict l => .dict (l.attach.map (fun x => (x.1.1, expand_env_vars f x.1.2)))
termination_by v => sizeOf v
decreasing_by
  · have := List.sizeOf_lt_of_mem x.2
    simp only [ConfigValue.list.sizeOf_spec]
    omega
  · have h1 := List.sizeOf_lt_of_mem x.2
    have h2 : sizeOf x.1.2 < sizeOf x.1 := by
      cases hx : x.1 with
      | mk a b => simp [hx] at h1 ⊢
    simp only [ConfigValue.dict.sizeOf_spec]
    omega

/-- C7: `_expand_env_vars` preserves the structure of its input and expands
only strings: a dict maps to a dict with the same keys and recursively
expanded values, a list to a list of the same length with recursively
expanded elements, a string to its expansion, and any other value is
returned unchanged. -/
theorem expand_env_vars_structure {α : Type} (f : String → String) :
    (∀ s : String, expand_env_vars (α := α) f (.str s) = .str (f s)) ∧
    (∀ a : α, expand_env_vars f (.other a) = .other a) ∧
    (∀ l : List (ConfigValue α),
      expand_env_vars f (.list l) = .list (l.map (expand_env_vars f)) ∧
      (l.map (expand_env_vars f)).length = l.length) ∧
    (∀ l : List (String × ConfigValue α),
      expand_env_vars f (.dict l) =
        .dict (l.map (fun p => (p.1, expand_env_vars f p.2))) ∧
      (l.map (fun p => (p.1, expand_env_vars f p.2))).map Prod.fst =
        l.map Prod.fst) := by
  refine ⟨fun s => by rw [expand_env_vars], fun a => by rw [expand_env_vars],
    fun l => ⟨?_, by rw [List.length_map]⟩,
    fun l => ⟨?_, by rw [List.map_map]; rfl⟩⟩
  · rw [expand_env_vars, List.attach_map_val]
  · rw [expand_env_vars, List.attach_map_val l (fun p => (p.1, expand_env_vars f p.2))]

/-- Embedded from `TrajectoryPredictionApp.predict_batch_scenes`
(app.py:485-539): each scene token is processed in the given order; a
successful result is appended to `results`, a raised exception is logged
and recorded as `(token, error)` in `failed_scenes`, and processing
continues.  Per-scene processing (`predict_single_scene`) is abstracted as
the oracle `process`. -/
def predict_batch_scenes {ρ : Type} (process : String → Except String ρ)
    (scene_tokens : List String) : List ρ × List (String × String) :=
  scene_tokens.foldl
    (fun acc tok =>
      match process tok with
      | .ok r => (acc.1 ++ [r], acc.2)
      | .error e => (acc.1, acc.2 ++ [(tok, e)]))
    ([], [])

/-- The batch fold, started from any accumulator, appends the contributions
of the remaining tokens. -/
theorem predict_batch_scenes_go {ρ : Type} (process : String → Except String ρ)
    (tokens : List String) (acc1 : List ρ) (acc2 : List (String × String)) :
    tokens.foldl
      (fun acc tok =>
        match process tok with
        | .ok r => (acc.1 ++ [r], acc.2)
        | .error e => (acc.1, acc.2 ++ [(tok, e)]))
      (acc1, acc2) =
    (acc1 ++ tokens.filterMap (fun tok => (process tok).toOption),
     acc2 ++ tokens.filterMap (fun tok =>
       match process tok with
       | .ok _ => none
       | .error e => some (tok, e))) := by
  induction tokens generalizing acc1 acc2 with
  | nil => simp
  | cons tok rest ih =>
      rw [List.foldl_cons, List.filterMap_cons, List.filterMap_cons]
      cases hp : process tok with
      | ok r => simp [hp, ih, Except.toOption]
      | error e => simp [hp, ih, Except.toOption]

/-- C8: `predict_batch_scenes` returns exactly one result per successfully
processed token, in the order the tokens were given; a token whose
processing raises contributes no result and is recorded as `(token, error)`
in the failure list, after which processing continues. -/
theorem predict_batch_scenes_partition {ρ : Type}
    (process : String → Except String ρ) (scene_tokens : List String) :
    (predict_batch_scenes process scene_tokens).1 =
      scene_tokens.filterMap (fun tok => (process tok).toOption) ∧
    (predict_batch_scenes process scene_tokens).2 =
      scene_tokens.filterMap (fun tok =>
        match process tok with
        | .ok _ => none
        | .error e => some (tok, e)) := by
  unfold predict_batch_scenes
  rw [predict_batch_scenes_go]
  simp

/-- Default base alpha of the "prediction" trajectory style
(visualizer.py:45). -/
def prediction_alpha : ℚ := 8/10

/-- Default base alpha of the "ground_truth" trajectory style
(visualizer.py:54). -/
def ground_truth_alpha : ℚ := 9/10

/-- Default base alpha of the "pdm_closed" trajectory style
(visualizer.py:63). -/
def pdm_closed_alpha : ℚ := 7/10

/-- Embedded from `TrajectoryVisualizer._render_bev_trajectories`
(visualizer.py:779-780): the opacity of the trajectory segment starting at
timestamp `t`, `alpha = style["alpha"] * (1.0 - 0.3 * time_progress)` with
`time_progress = (t - time_start) / (time_end - time_start)`. -/
def segment_alpha (base_alpha time_start time_end t : ℚ) : ℚ :=
  base_alpha * (1 - 3/10 * ((t - time_start) / (time_end - time_start)))

/-- Embedded from `TrajectoryVisualizer._render_bev_trajectories`
(visualizer.py:765-780): the timestamps are filtered to the time window and
segment `i` (for `i` up to `len - 2`, i.e. all filtered timestamps but the
last) is drawn with the opacity computed at its starting timestamp. -/
def bev_segment_alphas (base_alpha time_start time_end : ℚ)
    (timestamps : List ℚ) : List ℚ :=
  ((timestamps.filter
      (fun t => decide (time_start ≤ t) && decide (t ≤ time_end))).dropLast).map
    (segment_alpha base_alpha time_start time_end)

/-- C6: in `_render_bev_trajectories`, for a window with `time_end >
time_start` and a non-negative base alpha, every segment opacity equals
`base_alpha * (1 - 0.3 * (t - time_start)/(time_end - time_start))` for a
filtered timestamp `t` inside the window, lies between `0.7 * base_alpha`
and `base_alpha`, and is non-increasing in the segment's timestamp. -/
theorem bev_segment_alpha_decay (base_alpha time_start time_end : ℚ)
    (timestamps : List ℚ) (hw : time_start < time_end) (ha : 0 ≤ base_alpha) :
    (∀ a ∈ bev_segment_alphas base_alpha time_start time_end timestamps,
      (∃ t, t ∈ timestamps ∧ time_start ≤ t ∧ t ≤ time_end ∧
        a = base_alpha *
          (1 - 3/10 * ((t - time_start) / (time_end - time_start)))) ∧
      7/10 * base_alpha ≤ a ∧ a ≤ base_alpha) ∧
    (∀ t1 t2, time_start ≤ t1 → t1 ≤ t2 → t2 ≤ time_end →
      segment_alpha base_alpha time_start time_end t2 ≤
        segment_alpha base_alpha time_start time_end t1) := by
  have hd : (0 : ℚ) < time_end - time_start := sub_pos.mpr hw
  have key : ∀ t, time_start ≤ t → t ≤ time_end →
      7/10 * base_alpha ≤ segment_alpha base_alpha time_start time_end t ∧
      segment_alpha base_alpha time_start time_end t ≤ base_alpha := by
    intro t ht1 ht2
    have hu0 : (0 : ℚ) ≤ (t - time_start) / (time_end - time_start) :=
      div_nonneg (sub_nonneg.mpr ht1) (le_of_lt hd)
    have hu1 : (t - time_start) / (time_end - time_start) ≤ 1 := by
      rw [div_le_one hd]
      linarith
    unfold segment_alpha
    constructor
    · nlinarith [mul_nonneg ha
        (by linarith : (0:ℚ) ≤ 1 - (t - time_start) / (time_end - time_start))]
    · nlinarith [mul_nonneg ha hu0]
  constructor
  · intro a hmem
    unfold bev_segment_alphas at hmem
    rw [List.mem_map] at hmem
    obtain ⟨t, ht, rfl⟩ := hmem
    have ht2 := (List.dropLast_sublist _).mem ht
    rw [List.mem_filter] at ht2
    obtain ⟨htm, hcond⟩ := ht2
    rw [Bool.and_eq_true, decide_eq_true_eq, decide_eq_true_eq] at hcond
    exact ⟨⟨t, htm, hcond.1, hcond.2, rfl⟩,
      (key t hcond.1 hcond.2).1, (key t hcond.1 hcond.2).2⟩
  · intro t1 t2 h1 h12 h2
    have hmono : (t1 - time_start) / (time_end - time_start) ≤
        (t2 - time_start) / (time_end - time_start) := by
      apply div_le_div_of_nonneg_right ?_ (le_of_lt hd)
      · linarith
    unfold segment_alpha
    apply mul_le_mul_of_nonneg_left ?_ ha
    linarith

/-- Witness for C6 at a concrete input: the default prediction style, window
`(0, 2)`. -/
theorem bev_segment_alpha_decay_witness :
    (∀ a ∈ bev_segment_alphas prediction_alpha 0 2 [0, 1, 2],
      (∃ t, t ∈ [(0:ℚ), 1, 2] ∧ 0 ≤ t ∧ t ≤ 2 ∧
        a = prediction_alpha * (1 - 3/10 * ((t - 0) / (2 - 0)))) ∧
      7/10 * prediction_alpha ≤ a ∧ a ≤ prediction_alpha) ∧
    (∀ t1 t2, (0:ℚ) ≤ t1 → t1 ≤ t2 → t2 ≤ 2 →
      segment_alpha prediction_alpha 0 2 t2 ≤
        segment_alpha prediction_alpha 0 2 t1) :=
  bev_segment_alpha_decay prediction_alpha 0 2 [0, 1, 2]
    (by norm_num) (by norm_num [prediction_alpha])

/-- A recorded frame of a scene, as consumed by
`TrajectoryPredictionApp._get_frame_at_time` (app.py:444-483): a timestamp
in microseconds plus the rest of the frame data, abstracted as `α`. -/
structure Frame (α : Type) where
  timestamp : ℚ
  data : α

/-- The result dictionary of `_get_frame_at_time` (app.py:474-479): the
selected frame, its time in seconds, and its distance to the target time
(the frame's `agent_input` is part of `data`). -/
structure FrameResult (α : Type) where
  frame : Frame α
  actual_time : ℚ
  time_diff : ℚ

/-- The absolute time difference (seconds) between a frame (timestamp in
microseconds) and the target time, `abs(frame.timestamp / 1e6 -
target_time)` (app.py:461-462). -/
def frameDiff {α : Type} (target_time : ℚ) (f : Frame α) : ℚ :=
  |f.timestamp / 1000000 - target_time|

/-- One step of the best-frame scan of `_get_frame_at_time`
(app.py:457-466): the running best `(best_frame, best_time_diff)` is
replaced only on strict improvement; `none` models the initial
`best_time_diff = inf`. -/
def bestFrameStep {α : Type} (target_time : ℚ)
    (best : Option (Frame α × ℚ)) (f : Frame α) : Option (Frame α × ℚ) :=
  match best with
  | none => some (f, frameDiff target_time f)
  | some (bf, bd) =>
      if frameDiff target_time f < bd then some (f, frameDiff target_time f)
      else some (bf, bd)

/-- Embedded from `TrajectoryPredictionApp._get_frame_at_time`
(app.py:444-483): scan the scene's frames for the one closest in time to
`target_time`, returning it with its actual time (seconds) and time
difference, or `None` when there are no frames. -/
def get_frame_at_time {α : Type} (frames : List (Frame α))
    (target_time : ℚ) : Option (FrameResult α) :=
  match frames.foldl (bestFrameStep target_time) none with
  | none => none
  | some (bf, bd) => some ⟨bf, bf.timestamp / 1000000, bd⟩

/-- Unfolding equation of `bestFrameStep` on a concrete running best. -/
theorem bestFrameStep_some {α : Type} (target_time : ℚ) (bf : Frame α)
    (bd : ℚ) (f : Frame α) :
    bestFrameStep target_time (some (bf, bd)) f =
      if frameDiff target_time f < bd then some (f, frameDiff target_time f)
      else some (bf, bd) := rfl

/-- The best-frame scan started from a concrete best candidate either keeps
it (when nothing beats it strictly) or returns the first strictly better
frame not later beaten strictly. -/
theorem bestFrameStep_go {α : Type} (target_time : ℚ) (l : List (Frame α))
    (bf : Frame α) (bd : ℚ) :
    ∃ f d, l.foldl (bestFrameStep target_time) (some (bf, bd)) = some (f, d) ∧
      ((f = bf ∧ d = bd ∧ ∀ g ∈ l, bd ≤ frameDiff target_time g) ∨
       (∃ pre post, l = pre ++ f :: post ∧ d = frameDiff target_time f ∧
         d < bd ∧ (∀ g ∈ pre, d < frameDiff target_time g) ∧
         (∀ g ∈ post, d ≤ frameDiff target_time g))) := by
  induction l generalizing bf bd with
  | nil => exact ⟨bf, bd, rfl, Or.inl ⟨rfl, rfl, by simp⟩⟩
  | cons x xs ih =>
      rw [List.foldl_cons]
      by_cases hx : frameDiff target_time x < bd
      · rw [bestFrameStep_some, if_pos hx]
        obtain ⟨f, d, heq, hcase⟩ := ih x (frameDiff target_time x)
        refine ⟨f, d, heq, Or.inr ?_⟩
        rcases hcase with ⟨rfl, rfl, hall⟩ | ⟨pre, post, hsplit, hd, hlt, hpre, hpost⟩
        · exact ⟨[], xs, rfl, rfl, hx, by simp, hall⟩
        · refine ⟨x :: pre, post, by rw [hsplit]; rfl, hd, lt_trans hlt hx, ?_, hpost⟩
          intro g hg
          rcases List.mem_cons.mp hg with rfl | hg2
          · exact hlt
          · exact hpre g hg2
      · rw [bestFrameStep_some, if_neg hx]
        obtain ⟨f, d, heq, hcase⟩ := ih bf bd
        refine ⟨f, d, heq, ?_⟩
        rcases hcase with ⟨rfl, rfl, hall⟩ | ⟨pre, post, hsplit, hd, hlt, hpre, hpost⟩
        · refine Or.inl ⟨rfl, rfl, ?_⟩
          intro g hg
          rcases List.mem_cons.mp hg with rfl | hg2
          · exact not_lt.mp hx
          · exact hall g hg2
        · refine Or.inr ⟨x :: pre, post, by rw [hsplit]; rfl, hd,
            hlt, ?_, hpost⟩
          intro g hg
          rcases List.mem_cons.mp hg with rfl | hg2
          · exact lt_of_lt_of_le hlt (not_lt.mp hx)
          · exact hpre g hg2

/-- C10: `_get_frame_at_time` returns `None` exactly on an empty frame
list; otherwise it returns the first frame (in scene order) minimizing the
absolute difference between the frame time (timestamp / 1e6) and the target
time, with `actual_time` the frame's time in seconds and `time_diff` that
minimal difference.  All frames before the chosen one are strictly farther,
all later ones no closer. -/
theorem get_frame_at_time_nearest {α : Type} (frames : List (Frame α))
    (target_time : ℚ) :
    (frames = [] → get_frame_at_time frames target_time = none) ∧
    (frames ≠ [] → ∃ res pre post,
      get_frame_at_time frames target_time = some res ∧
      frames = pre ++ res.frame :: post ∧
      res.actual_time = res.frame.timestamp / 1000000 ∧
      res.time_diff = frameDiff target_time res.frame ∧
      (∀ g ∈ pre, res.time_diff < frameDiff target_time g) ∧
      (∀ g ∈ post, res.time_diff ≤ frameDiff target_time g)) := by
  constructor
  · intro h; rw [h]; rfl
  · intro hne
    cases frames with
    | nil => exact absurd rfl hne
    | cons x xs =>
        unfold get_frame_at_time
        rw [List.foldl_cons,
          show bestFrameStep target_time none x =
            some (x, frameDiff target_time x) from rfl]
        obtain ⟨f, d, heq, hcase⟩ :=
          bestFrameStep_go target_time xs x (frameDiff target_time x)
        rw [heq]
        rcases hcase with ⟨rfl, rfl, hall⟩ | ⟨pre, post, hsplit, hd, hlt, hpre, hpost⟩
        · exact ⟨⟨f, f.timestamp / 1000000, frameDiff target_time f⟩, [], xs,
            rfl, rfl, rfl, rfl, by simp, hall⟩
        · refine ⟨⟨f, f.timestamp / 1000000, d⟩, x :: pre, post,
            rfl, by rw [hsplit]; rfl, rfl, hd, ?_, hpost⟩
          intro g hg
          rcases List.mem_cons.mp hg with rfl | hg2
          · exact hlt
          · exact hpre g hg2

/-- Witness for C10 at a concrete input: two frames at 0 s and 1 s, target
1 s selects the second frame. -/
theorem get_frame_at_time_nearest_witness :
    ∃ res pre post,
      get_frame_at_time [Frame.mk 0 "f1", Frame.mk 1000000 "f2"] 1 = some res ∧
      [Frame.mk 0 "f1", Frame.mk 1000000 "f2"] = pre ++ res.frame :: post ∧
      res.actual_time = res.frame.timestamp / 1000000 ∧
      res.time_diff = frameDiff 1 res.frame ∧
      (∀ g ∈ pre, res.time_diff < frameDiff 1 g) ∧
      (∀ g ∈ post, res.time_diff ≤ frameDiff 1 g) :=
  (get_frame_at_time_nearest [Frame.mk 0 "f1", Frame.mk 1000000 "f2"] 1).2
    (by simp)

/-- `np.linalg.inv` on a 3×3 rational matrix: the adjugate scaled by the
inverse determinant.  Over a field this coincides with Mathlib's `⁻¹`. -/
def np_linalg_inv (A : Matrix (Fin 3) (Fin 3) ℚ) : Matrix (Fin 3) (Fin 3) ℚ :=
  A.det⁻¹ • A.adjugate

/-- `np_linalg_inv` is Mathlib's nonsingular inverse. -/
theorem np_linalg_inv_eq (A : Matrix (Fin 3) (Fin 3) ℚ) :
    np_linalg_inv A = A⁻¹ := by
  rw [Matrix.inv_def, Ring.inverse_eq_inv]
  rfl

/-- Embedded from
`TrajectoryVisualizer._transform_trajectory_to_camera_frame`
(visualizer.py:939): `lidar2cam_r = np.linalg.inv(camera.sensor2lidar_rotation)`. -/
def lidar2cam_r (sensor2lidar_rotation : Matrix (Fin 3) (Fin 3) ℚ) :
    Matrix (Fin 3) (Fin 3) ℚ :=
  np_linalg_inv sensor2lidar_rotation

/-- Embedded from visualizer.py:940:
`lidar2cam_t = camera.sensor2lidar_translation @ lidar2cam_r.T`. -/
def lidar2cam_t (sensor2lidar_rotation : Matrix (Fin 3) (Fin 3) ℚ)
    (sensor2lidar_translation : Fin 3 → ℚ) : Fin 3 → ℚ :=
  Matrix.vecMul sensor2lidar_translation (Matrix.transpose (lidar2cam_r sensor2lidar_rotation))

/-- Embedded from visualizer.py:943-945: the 4×4 homogeneous matrix
`lidar2cam_rt = np.eye(4); [:3,:3] = lidar2cam_r.T; [3,:3] = -lidar2cam_t`.
Indices `0..2` are the `Fin 3` summand and index `3` is the `Fin 1`
summand. -/
def lidar2cam_rt (sensor2lidar_rotation : Matrix (Fin 3) (Fin 3) ℚ)
    (sensor2lidar_translation : Fin 3 → ℚ) :
    Matrix (Fin 3 ⊕ Fin 1) (Fin 3 ⊕ Fin 1) ℚ :=
  Matrix.fromBlocks (Matrix.transpose (lidar2cam_r sensor2lidar_rotation)) 0
    (Matrix.of fun _ j =>
      -(lidar2cam_t sensor2lidar_rotation sensor2lidar_translation j))
    1

/-- Embedded from
`TrajectoryVisualizer._transform_trajectory_to_camera_frame`
(visualizer.py:927-956): each 3-D point is extended with a homogeneous
coordinate 1, multiplied as `(lidar2cam_rt.T @ trajectory_4d.T).T` (i.e. the
row vector times `lidar2cam_rt`), and the first three coordinates are
kept. -/
def transform_trajectory_to_camera_frame
    (sensor2lidar_rotation : Matrix (Fin 3) (Fin 3) ℚ)
    (sensor2lidar_translation : Fin 3 → ℚ)
    (trajectory_3d : List (Fin 3 → ℚ)) : List (Fin 3 → ℚ) :=
  trajectory_3d.map (fun p i =>
    Matrix.vecMul (Sum.elim p (fun _ => 1))
      (lidar2cam_rt sensor2lidar_rotation sensor2lidar_translation)
      (Sum.inl i))

/-- A single point transformed by the homogeneous pipeline equals
`R⁻¹ ⬝ (p - t)`. -/
theorem transform_point_eq (R : Matrix (Fin 3) (Fin 3) ℚ) (t : Fin 3 → ℚ)
    (p : Fin 3 → ℚ) :
    (fun i => Matrix.vecMul (Sum.elim p (fun _ => 1)) (lidar2cam_rt R t)
      (Sum.inl i)) = Matrix.mulVec R⁻¹ (p - t) := by
  funext i
  rw [lidar2cam_rt, Matrix.vecMul_fromBlocks]
  have h1 : Sum.elim p (fun (_ : Fin 1) => (1 : ℚ)) ∘ Sum.inl = p := rfl
  have h2 : Sum.elim p (fun (_ : Fin 1) => (1 : ℚ)) ∘ Sum.inr =
      (fun _ => (1 : ℚ)) := rfl
  simp only [Sum.elim_inl, h1, h2]
  have h3 : Matrix.vecMul p (Matrix.transpose (lidar2cam_r R)) = Matrix.mulVec (lidar2cam_r R) p :=
    Matrix.vecMul_transpose _ _
  have h4 : Matrix.vecMul (fun (_ : Fin 1) => (1 : ℚ))
      (Matrix.of fun _ j => -(lidar2cam_t R t j)) =
      fun j => -(lidar2cam_t R t j) := by
    funext j
    simp [Matrix.vecMul, Matrix.dotProduct]
  rw [h3, h4]
  have h5 : lidar2cam_t R t = Matrix.mulVec (lidar2cam_r R) t :=
    Matrix.vecMul_transpose _ _
  rw [h5]
  simp only [Pi.add_apply, lidar2cam_r, np_linalg_inv_eq]
  rw [Matrix.mulVec_sub]
  simp [sub_eq_add_neg]

/-- C5: for an invertible `sensor2lidar_rotation` `R`,
`_transform_trajectory_to_camera_frame` maps every point `p` of the
trajectory independently to `R⁻¹ (p - t)` with
`t = sensor2lidar_translation`: the exact inverse of the camera's rigid
sensor-to-lidar transform. -/
theorem transform_trajectory_to_camera_frame_inverse
    (R : Matrix (Fin 3) (Fin 3) ℚ) (t : Fin 3 → ℚ)
    (trajectory_3d : List (Fin 3 → ℚ)) (_hR : IsUnit R.det) :
    transform_trajectory_to_camera_frame R t trajectory_3d =
      trajectory_3d.map (fun p => Matrix.mulVec R⁻¹ (p - t)) := by
  unfold transform_trajectory_to_camera_frame
  refine List.map_congr_left ?_
  intro p _
  exact transform_point_eq R t p

/-- Witness for C5 at a concrete input: the identity rotation and a
nontrivial translation. -/
theorem transform_trajectory_to_camera_frame_inverse_witness :
    transform_trajectory_to_camera_frame 1 ![1, 2, 3] [![5, 6, 7]] =
      [Matrix.mulVec (1 : Matrix (Fin 3) (Fin 3) ℚ)⁻¹ (![5, 6, 7] - ![1, 2, 3])] :=
  transform_trajectory_to_camera_frame_inverse 1 ![1, 2, 3] [![5, 6, 7]]
    (by simp)

/-- `np.max` over a (nonempty) array, as used in
`_calculate_trajectory_metrics` (visualizer.py:1170); returns 0 on an empty
list, which the code never reaches. -/
def np_max : List ℝ → ℝ
  | [] => 0
  | x :: xs => xs.foldl max x

/-- The Euclidean distance between the `(x, y)` positions of two poses,
`np.linalg.norm(gt[:2] - pred[:2])` (visualizer.py:1165); heading is
ignored. -/
noncomputable def pose_dist (g p : ℝ × ℝ × ℝ) : ℝ :=
  Real.sqrt ((g.1 - p.1) ^ 2 + (g.2.1 - p.2.1) ^ 2)

/-- The metrics dictionary returned by `_calculate_trajectory_metrics`
(visualizer.py:1173-1178). -/
structure TrajectoryMetrics where
  ade : ℝ
  fde : ℝ
  max_error : ℝ
  rmse : ℝ

/-- Embedded from `_calculate_trajectory_metrics` (visualizer.py:1156-1165):
both pose arrays are truncated to the common prefix length
`min_length = min(len(gt), len(pred))` and the per-point position errors are
computed. -/
noncomputable def position_errors (gt_poses pred_poses : List (ℝ × ℝ × ℝ)) :
    List ℝ :=
  ((gt_poses.take (min gt_poses.length pred_poses.length)).zip
    (pred_poses.take (min gt_poses.length pred_poses.length))).map
      (fun q => pose_dist q.1 q.2)

/-- Embedded from `TrajectoryVisualizer._calculate_trajectory_metrics`
(visualizer.py:1141-1178): ADE is the mean position error, FDE the last,
`max_error` the maximum, RMSE the root mean square; when the common prefix
is empty all four are 0. -/
noncomputable def calculate_trajectory_metrics
    (gt_poses pred_poses : List (ℝ × ℝ × ℝ)) : TrajectoryMetrics :=
  if min gt_poses.length pred_poses.length = 0 then ⟨0, 0, 0, 0⟩
  else
    ⟨(position_errors gt_poses pred_poses).sum /
        ((position_errors gt_poses pred_poses).length : ℝ),
     (position_errors gt_poses pred_poses).getLastD 0,
     np_max (position_errors gt_poses pred_poses),
     Real.sqrt (((position_errors gt_poses pred_poses).map (fun e => e ^ 2)).sum /
        ((position_errors gt_poses pred_poses).length : ℝ))⟩

/-- The Euclidean `(x, y)` distance between the `i`-th points of the common
prefix of the two pose arrays. -/
noncomputable def prefix_dist (gt_poses pred_poses : List (ℝ × ℝ × ℝ))
    (i : Fin (min gt_poses.length pred_poses.length)) : ℝ :=
  pose_dist (gt_poses.get (Fin.castLE (Nat.min_le_left _ _) i))
    (pred_poses.get (Fin.castLE (Nat.min_le_right _ _) i))

/-- Element access commutes with `take`. -/
theorem getElem_take_eq {α : Type} (l : List α) (n i : ℕ)
    (h1 : i < (l.take n).length) (h2 : i < l.length) :
    (l.take n).get ⟨i, h1⟩ = l.get ⟨i, h2⟩ := by
  have h3 : i < n := by rw [List.length_take] at h1; omega
  have h := List.getElem?_take_of_lt (l := l) (n := n) (m := i) h3
  rw [List.getElem?_eq_getElem h1, List.getElem?_eq_getElem h2] at h
  simpa using h

/-- The position-error array is the indexed family of prefix distances. -/
theorem position_errors_eq_ofFn (gt_poses pred_poses : List (ℝ × ℝ × ℝ)) :
    position_errors gt_poses pred_poses =
      List.ofFn (prefix_dist gt_poses pred_poses) := by
  apply List.ext_getElem
  · simp only [position_errors, List.length_map, List.length_zip,
      List.length_take, List.length_ofFn]
    omega
  · intro i h1 h2
    simp only [position_errors, List.getElem_map, List.getElem_zip,
      List.getElem_ofFn]
    have hz : i < (List.zip (gt_poses.take (min gt_poses.length pred_poses.length))
        (pred_poses.take (min gt_poses.length pred_poses.length))).length := by
      simpa [position_errors] using h1
    have hi : i < min gt_poses.length pred_poses.length := by
      simpa using h2
    unfold prefix_dist
    simp only [List.get_eq_getElem, Fin.coe_castLE]
    congr 1
    · have hg : i < gt_poses.length := lt_of_lt_of_le hi (Nat.min_le_left _ _)
      have ht : i < (gt_poses.take (min gt_poses.length pred_poses.length)).length := by
        rw [List.length_take]; omega
      simpa using getElem_take_eq gt_poses _ i ht hg
    · have hp : i < pred_poses.length := lt_of_lt_of_le hi (Nat.min_le_right _ _)
      have ht : i < (pred_poses.take (min gt_poses.length pred_poses.length)).length := by
        rw [List.length_take]; omega
      simpa using getElem_take_eq pred_poses _ i ht hp

/-- The fold of `max` dominates its starting value and every element. -/
theorem le_foldl_max (xs : List ℝ) (a : ℝ) :
    a ≤ xs.foldl max a ∧ ∀ x ∈ xs, x ≤ xs.foldl max a := by
  induction xs generalizing a with
  | nil => exact ⟨le_refl a, by simp⟩
  | cons y ys ih =>
      rw [List.foldl_cons]
      obtain ⟨h1, h2⟩ := ih (max a y)
      refine ⟨le_trans (le_max_left a y) h1, ?_⟩
      intro x hx
      rcases List.mem_cons.mp hx with rfl | hx2
      · exact le_trans (le_max_right a x) h1
      · exact h2 x hx2

/-- The fold of `max` is its starting value or one of the elements. -/
theorem foldl_max_mem (xs : List ℝ) (a : ℝ) :
    xs.foldl max a = a ∨ xs.foldl max a ∈ xs := by
  induction xs generalizing a with
  | nil => exact Or.inl rfl
  | cons y ys ih =>
      rw [List.foldl_cons]
      rcases ih (max a y) with h | h
      · rcases max_choice a y with hc | hc
        · exact Or.inl (by rw [h, hc])
        · exact Or.inr (by rw [h, hc]; exact List.mem_cons_self _ _)
      · exact Or.inr (List.mem_cons_of_mem _ h)

/-- `np_max` of a nonempty list is a member and an upper bound. -/
theorem np_max_spec (l : List ℝ) (h : l ≠ []) :
    np_max l ∈ l ∧ ∀ x ∈ l, x ≤ np_max l := by
  cases l with
  | nil => exact absurd rfl h
  | cons x xs =>
      have key : np_max (x :: xs) = xs.foldl max x := rfl
      rw [key]
      obtain ⟨h1, h2⟩ := le_foldl_max xs x
      have hb : ∀ y ∈ x :: xs, y ≤ xs.foldl max x := by
        intro y hy
        rcases List.mem_cons.mp hy with rfl | hy2
        · exact h1
        · exact h2 y hy2
      rcases foldl_max_mem xs x with he | he
      · exact ⟨by rw [he]; exact List.mem_cons_self _ _, hb⟩
      · exact ⟨List.mem_cons_of_mem _ he, hb⟩

/-- The last element of a nonempty `ofFn` list. -/
theorem getLastD_ofFn_last {α : Type} {n : ℕ} (f : Fin n → α) (d : α)
    (hn : 0 < n) :
    (List.ofFn f).getLastD d = f ⟨n - 1, Nat.sub_lt hn Nat.one_pos⟩ := by
  have hne : List.ofFn f ≠ [] := by
    apply List.length_pos.mp
    rw [List.length_ofFn]
    exact hn
  rw [List.getLastD_eq_getLast?, List.getLast?_eq_getLast _ hne, Option.getD_some,
    List.getLast_eq_getElem, List.getElem_ofFn]
  congr 1
  apply Fin.ext
  simp

/-- C9: `_calculate_trajectory_metrics` truncates both pose arrays to their
common prefix of length `L = min(N, M)`; when `L = 0` it returns all-zero
metrics instead of raising, and when `L > 0` it returns ADE the mean of the
per-point Euclidean `(x, y)` distances over the prefix, FDE the distance at
the last prefix point, `max_error` their maximum, and RMSE the root mean
squared distance. -/
theorem calculate_trajectory_metrics_spec
    (gt_poses pred_poses : List (ℝ × ℝ × ℝ)) :
    (min gt_poses.length pred_poses.length = 0 →
      calculate_trajectory_metrics gt_poses pred_poses = ⟨0, 0, 0, 0⟩) ∧
    ∀ hL : 0 < min gt_poses.length pred_poses.length,
      (calculate_trajectory_metrics gt_poses pred_poses).ade =
        (∑ i, prefix_dist gt_poses pred_poses i) /
          ((min gt_poses.length pred_poses.length : ℕ) : ℝ) ∧
      (calculate_trajectory_metrics gt_poses pred_poses).fde =
        prefix_dist gt_poses pred_poses
          ⟨min gt_poses.length pred_poses.length - 1, Nat.sub_lt hL Nat.one_pos⟩ ∧
      ((∃ i, (calculate_trajectory_metrics gt_poses pred_poses).max_error =
          prefix_dist gt_poses pred_poses i) ∧
        ∀ i, prefix_dist gt_poses pred_poses i ≤
          (calculate_trajectory_metrics gt_poses pred_poses).max_error) ∧
      (calculate_trajectory_metrics gt_poses pred_poses).rmse =
        Real.sqrt ((∑ i, (prefix_dist gt_poses pred_poses i) ^ 2) /
          ((min gt_poses.length pred_poses.length : ℕ) : ℝ)) := by
  constructor
  · intro h0
    unfold calculate_trajectory_metrics
    rw [if_pos h0]
  · intro hL
    have h0 : min gt_poses.length pred_poses.length ≠ 0 := Nat.pos_iff_ne_zero.mp hL
    have herrs := position_errors_eq_ofFn gt_poses pred_poses
    have hne : position_errors gt_poses pred_poses ≠ [] := by
      rw [herrs]
      apply List.length_pos.mp
      rw [List.length_ofFn]
      exact hL
    unfold calculate_trajectory_metrics
    rw [if_neg h0]
    refine ⟨?_, ?_, ?_, ?_⟩
    · show (position_errors gt_poses pred_poses).sum /
          ((position_errors gt_poses pred_poses).length : ℝ) = _
      rw [herrs, List.sum_ofFn, List.length_ofFn]
    · show (position_errors gt_poses pred_poses).getLastD 0 = _
      rw [herrs, getLastD_ofFn_last _ _ hL]
    · obtain ⟨hmem, hub⟩ := np_max_spec _ hne
      constructor
      · have hmem2 : np_max (position_errors gt_poses pred_poses) ∈
            List.ofFn (prefix_dist gt_poses pred_poses) := by
          rw [← herrs]; exact hmem
        rw [List.mem_ofFn] at hmem2
        obtain ⟨i, hi⟩ := hmem2
        exact ⟨i, hi.symm⟩
      · intro i
        show prefix_dist gt_poses pred_poses i ≤
          np_max (position_errors gt_poses pred_poses)
        apply hub
        rw [herrs, List.mem_ofFn]
        exact ⟨i, rfl⟩
    · show Real.sqrt (((position_errors gt_poses pred_poses).map
          (fun e => e ^ 2)).sum /
        ((position_errors gt_poses pred_poses).length : ℝ)) = _
      rw [herrs, List.map_ofFn, List.sum_ofFn, List.length_ofFn]
      rfl

/-- Concrete ground truth for the C9 witness. -/
noncomputable def example_gt : List (ℝ × ℝ × ℝ) := [(0, 0, 0), (3, 4, 0)]

/-- Concrete prediction for the C9 witness. -/
noncomputable def example_pred : List (ℝ × ℝ × ℝ) := [(0, 0, 0), (0, 0, 0)]

/-- Witness for C9 at a concrete input with common prefix length 2. -/
theorem calculate_trajectory_metrics_spec_witness :
    (calculate_trajectory_metrics example_gt example_pred).ade =
      (∑ i, prefix_dist example_gt example_pred i) /
        ((min example_gt.length example_pred.length : ℕ) : ℝ) ∧
    (calculate_trajectory_metrics example_gt example_pred).fde =
      prefix_dist example_gt example_pred
        ⟨min example_gt.length example_pred.length - 1,
          by norm_num [example_gt, example_pred]⟩ ∧
    ((∃ i, (calculate_trajectory_metrics example_gt example_pred).max_error =
        prefix_dist example_gt example_pred i) ∧
      ∀ i, prefix_dist example_gt example_pred i ≤
        (calculate_trajectory_metrics example_gt example_pred).max_error) ∧
    (calculate_trajectory_metrics example_gt example_pred).rmse =
      Real.sqrt ((∑ i, (prefix_dist example_gt example_pred i) ^ 2) /
        ((min example_gt.length example_pred.length : ℕ) : ℝ)) :=
  (calculate_trajectory_metrics_spec example_gt example_pred).2
    (by norm_num [example_gt, example_pred])
